/-
  A shallow embedding of jsonshapes/schemacheck.py (tonyg/json-shapes).

  The embedding models the Python module's data model directly:
  * `JValue` is the universe of run-time values the validator can see:
    JSON-parsed data (strings, ints, floats, booleans, null, lists,
    string-keyed dicts) plus the `AbsentValue` sentinel that dict
    validation feeds to per-key descriptors.
  * `Desc` mirrors the `Descriptor` class hierarchy, one constructor per
    concrete descriptor class.
  * `Report` mirrors the values `_validate` returns: Python `False`
    (no error), a string message, or a dict from keys to nested reports.
    Python truthiness of these values is `Report.truthy`.
  * Exceptions raised inside `_validate` are modelled with
    `Except String`; `Descriptor.validate` catches them and produces the
    "Predicate failed: " message, exactly as the `try/except` wrapper does.

  Python-semantics points that the source relies on and that are modelled
  faithfully:
  * `isinstance(v, int)` is true for booleans (`bool` is a subclass of
    `int`), so `NumberDescriptor` accepts `True`/`False` and `expand`
    sends boolean protos to the `isinstance(t, int)` branch.
  * `type(v)` distinguishes `bool` from `int` and `int` from `float`,
    while `==` compares numbers across those types (`True == 1`,
    `1 == 1.0`).
  * Dict iteration is modelled as association-list order (CPython's
    iteration order for the small-int-keyed dicts built by `_or` and for
    string-keyed literal dicts is not semantically relevant beyond
    "some fixed order"; we fix insertion order).
  * Exception *descriptions* (the traceback text embedded after
    "Predicate failed: ") are abstracted to short fixed strings naming
    the Python exception; no claim depends on the traceback text.
-/
import Mathlib

namespace JsonShapes

/-- Run-time values: JSON data plus the AbsentValue sentinel. -/
inductive JValue where
  | str (s : String)
  | int (n : Int)
  | float (q : Rat)
  | bool (b : Bool)
  | null
  | list (xs : List JValue)
  | dict (entries : List (String × JValue))
  | absent (name : String)

/-- Python `type()` tags for the values above.  `type(True)` is `bool`
(distinct from `int`); an `AbsentValue` is an old-style class instance. -/
inductive PyType where
  | strT | intT | floatT | boolT | nullT | listT | dictT | absentT
deriving DecidableEq

/-- Keys of error-report dicts: strings (dict/list descriptors, or_dict)
or non-negative integers (array counters, positional alternation). -/
inductive RKey where
  | s (s : String)
  | i (n : Nat)
deriving DecidableEq

/-- Return values of `_validate`: Python `False` (no error), a message
string, or a dict from keys to nested reports. -/
inductive Report where
  | ok
  | msg (s : String)
  | dict (entries : List (RKey × Report))

/-- is_absent(v) -/
def isAbsent : JValue → Bool
  | .absent _ => true
  | _ => false

/-- Python `type(v)`. -/
def pyType : JValue → PyType
  | .str _ => .strT
  | .int _ => .intT
  | .float _ => .floatT
  | .bool _ => .boolT
  | .null => .nullT
  | .list _ => .listT
  | .dict _ => .dictT
  | .absent _ => .absentT

/-- str(type(v)) up to quoting (Python 2 prints e.g. <type 'int'>;
the inner quotes are dropped in this model). -/
def typeStr : PyType → String
  | .strT => "<type str>"
  | .intT => "<type int>"
  | .floatT => "<type float>"
  | .boolT => "<type bool>"
  | .nullT => "<type NoneType>"
  | .listT => "<type list>"
  | .dictT => "<type dict>"
  | .absentT => "<type instance>"

/-- Numeric view used by Python `==`: ints, floats and booleans compare
as numbers (`True == 1`, `1 == 1.0`). -/
def numVal : JValue → Option Rat
  | .int n => some (n : Rat)
  | .float q => some q
  | .bool b => some (if b then 1 else 0)
  | _ => none

mutual
/-- Python `==` on the value universe.  `AbsentValue.__eq__` returns
`is_absent(other)`; numbers compare across int/float/bool; lists compare
pointwise; dicts compare as key-value maps. -/
def pyEq : JValue → JValue → Bool
  | .list xs, .list ys => pyEqL xs ys
  | .dict es, .dict fs => es.length == fs.length && pyEqD es fs
  | a, b =>
    match numVal a, numVal b with
    | some x, some y => x == y
    | _, _ =>
      match a, b with
      | .str s, .str t => s == t
      | .null, .null => true
      | .absent _, x => isAbsent x
      | _, .absent _ => false
      | _, _ => false

def pyEqL : List JValue → List JValue → Bool
  | [], [] => true
  | x :: xs, y :: ys => pyEq x y && pyEqL xs ys
  | _, _ => false

def pyEqD : List (String × JValue) → List (String × JValue) → Bool
  | [], _ => true
  | (k, v) :: es, fs =>
    (match fs.lookup k with
     | some w => pyEq v w
     | none => false) && pyEqD es fs
end

mutual
/-- repr(v), used in the "Value mismatch" message.  String quoting uses
plain apostrophes (written as escapes); float rendering is abstracted to
the rational's printed form. -/
def pyRepr : JValue → String
  | .str s => "\x27" ++ s ++ "\x27"
  | .int n => toString n
  | .float q => toString q
  | .bool b => if b then "True" else "False"
  | .null => "None"
  | .list xs => "[" ++ pyReprL xs ++ "]"
  | .dict es => "\x7b" ++ pyReprD es ++ "\x7d"
  | .absent name => "AbsentValue(" ++ name ++ ")"

def pyReprL : List JValue → String
  | [] => ""
  | [x] => pyRepr x
  | x :: xs => pyRepr x ++ ", " ++ pyReprL xs

def pyReprD : List (String × JValue) → String
  | [] => ""
  | [(k, v)] => "\x27" ++ k ++ "\x27: " ++ pyRepr v
  | (k, v) :: es => "\x27" ++ k ++ "\x27: " ++ pyRepr v ++ ", " ++ pyReprD es
end

/-- Python truthiness of a `_validate` result: `False` is falsy, a string
is truthy iff non-empty, a dict is truthy iff non-empty. -/
def Report.truthy : Report → Bool
  | .ok => false
  | .msg s => s.length != 0
  | .dict es => !es.isEmpty

/-- The compiled Descriptor tree: one constructor per concrete
`Descriptor` subclass.  A `regexp` carries its pattern text together with
the compiled matcher (an abstraction of `re.compile(pat).match`, viewed
as a predicate on strings).  The exact-literal descriptors store the
Python object passed to `ExactLiteralValueValidatorMixin.__init__`. -/
inductive Desc where
  | regexp (pat : String) (matcher : String → Bool)
  | number
  | string
  | boolean
  | nonemptyString
  | exactString (lit : JValue)
  | exactNumber (lit : JValue)
  | exactBool (lit : JValue)
  | exactNull
  | wild
  | negation (t : Desc)
  | map (keyType valueType : Desc)
  | array (elementType : Desc)
  | optional (t : Desc)
  | alternation (options : List (RKey × Desc))
  | and (schemas : List Desc)
  | extensibleDict (t : List (String × Desc))
  | exactDict (t : List (String × Desc))
  | list (t : List Desc)

/-- isinstance(v, int): true for ints AND booleans (bool subclasses int). -/
def isInstInt : JValue → Bool
  | .int _ => true
  | .bool _ => true
  | _ => false

/-- isinstance(v, float). -/
def isInstFloat : JValue → Bool
  | .float _ => true
  | _ => false

/-- isinstance(v, str) or isinstance(v, unicode). -/
def isInstStr : JValue → Bool
  | .str _ => true
  | _ => false

/-- v.get(key, AbsentValue(key)) on a dict's entry list. -/
def getOrAbsent (es : List (String × JValue)) (k : String) : JValue :=
  match es.lookup k with
  | some w => w
  | none => .absent k

/-- len(v): defined for strings, lists and dicts; a TypeError otherwise. -/
def pyLen : JValue → Except String Nat
  | .str s => .ok s.length
  | .list xs => .ok xs.length
  | .dict es => .ok es.length
  | _ => .error "TypeError: object of that type has no len()"

/-- v[i] for a non-negative index i: list element, one-character string,
or a KeyError for a (string-keyed) dict; TypeError otherwise. -/
def pyIndex : JValue → Nat → Except String JValue
  | .list xs, i =>
    match xs.get? i with
    | some x => .ok x
    | none => .error "IndexError: list index out of range"
  | .str s, i =>
    match s.data.get? i with
    | some c => .ok (.str (String.singleton c))
    | none => .error "IndexError: string index out of range"
  | .dict _, _ => .error "KeyError: integer key"
  | _, _ => .error "TypeError: object is unsubscriptable"

/-- for x in v: lists yield elements, strings yield one-character
strings, dicts yield their keys; anything else raises TypeError. -/
def iterElems : JValue → Except String (List JValue)
  | .list xs => .ok xs
  | .str s => .ok (s.data.map (fun c => .str (String.singleton c)))
  | .dict es => .ok (es.map (fun kv => JValue.str kv.1))
  | _ => .error "TypeError: object is not iterable"

/-- Hashability: lists and dicts are unhashable, everything else here is
hashable. -/
def isHashable : JValue → Bool
  | .list _ => false
  | .dict _ => false
  | _ => true

/-- Keep-first deduplication by Python equality (models which elements a
set retains; iteration order is modelled as first-occurrence order). -/
def dedupKeep : List JValue → List JValue
  | [] => []
  | x :: xs => x :: (dedupKeep xs).filter (fun y => !pyEq x y)

/-- set(v): dict keys, distinct string characters, or deduplicated list
elements (raising TypeError on unhashable elements or non-iterables). -/
def pySet : JValue → Except String (List JValue)
  | .dict es => .ok (es.map (fun kv => JValue.str kv.1))
  | .str s => .ok (dedupKeep (s.data.map (fun c => .str (String.singleton c))))
  | .list xs =>
    if xs.all isHashable then .ok (dedupKeep xs)
    else .error "TypeError: unhashable type"
  | _ => .error "TypeError: object is not iterable"

/-- ", ".join(xs): raises TypeError unless every element is a string. -/
def joinStrs (xs : List JValue) : Except String String :=
  if xs.all isInstStr then
    .ok (String.intercalate ", " (xs.filterMap (fun x =>
      match x with
      | .str s => some s
      | _ => none)))
  else .error "TypeError: sequence item: expected string"

/-- The `try/except` wrapper body of `Descriptor.validate`: pass a normal
result through, turn a raised exception into the prefixed leaf message. -/
def wrap : Except String Report → Report
  | .ok r => r
  | .error e => .msg ("Predicate failed: " ++ e)

/-- ExactLiteralValueValidatorMixin._validate (shared by the
ExactString/ExactNumber/ExactBoolean descriptor classes). -/
def exactCheck (lit v : JValue) : Report :=
  if pyEq v lit then .ok
  else if pyType v ≠ pyType lit then .msg ("Type mismatch: expected " ++ typeStr (pyType lit))
  else .msg ("Value mismatch: expected " ++ pyRepr lit)

/-- Collect the entries of MapDescriptor._validate's result dict: a key
failure is recorded under "key <k>", otherwise a value failure under
"valueAt <k>"; passing pairs contribute nothing. -/
def mapScanEntries : List (String × Report × Report) → List (RKey × Report)
  | [] => []
  | (k, kr, vr) :: rest =>
    if kr.truthy then (RKey.s ("key " ++ k), kr) :: mapScanEntries rest
    else if vr.truthy then (RKey.s ("valueAt " ++ k), vr) :: mapScanEntries rest
    else mapScanEntries rest

/-- ArrayDescriptor._validate's result entries: failing element reports
keyed by their 0-based counter. -/
def arrScanEntries : List Report → Nat → List (RKey × Report)
  | [], _ => []
  | r :: rs, i =>
    if r.truthy then (RKey.i i, r) :: arrScanEntries rs (i + 1)
    else arrScanEntries rs (i + 1)

/-- `result if haveResult else False`: haveResult is exactly
"some entry was recorded". -/
def finishReport (entries : List (RKey × Report)) : Report :=
  if entries.isEmpty then .ok else .dict entries

mutual
/-- `_validate` of each Descriptor class, with raised exceptions made
explicit in the `Except` monad.  Sub-descriptors are always run through
the full `validate` wrapper (`wrap ∘ validateE`), as in the source. -/
def validateE : Desc → JValue → Except String Report
  | .regexp pat matcher, v =>
    match v with
    | .str s => .ok (if matcher s then .ok else .msg ("regexp failed: " ++ pat))
    | _ => .error "TypeError: expected string or buffer"
  | .number, v =>
    .ok (if isInstInt v || isInstFloat v then .ok else .msg "Expected number")
  | .string, v =>
    .ok (if isInstStr v then .ok else .msg "Expected string")
  | .boolean, v =>
    .ok (match v with
         | .bool _ => .ok
         | _ => .msg "Expected boolean")
  | .nonemptyString, v =>
    -- StringDescriptor._validate(self, v) or (False if len(v) > 0 else ...)
    .ok (match v with
         | .str s => if s.length > 0 then .ok else .msg "Expected non-empty string"
         | _ => .msg "Expected string")
  | .exactString lit, v => .ok (exactCheck lit v)
  | .exactNumber lit, v => .ok (exactCheck lit v)
  | .exactBool lit, v => .ok (exactCheck lit v)
  | .exactNull, v =>
    .ok (match v with
         | .null => .ok
         | _ => .msg "Expected null")
  | .wild, _ => .ok .ok
  | .negation t, v =>
    .ok (if (wrap (validateE t v)).truthy then .ok else .msg "Negation failed")
  | .map kt vt, v =>
    match v with
    | .dict es =>
      .ok (finishReport (mapScanEntries (es.map (fun kv =>
        (kv.1, wrap (validateE kt (.str kv.1)), wrap (validateE vt kv.2))))))
    | _ => .error "AttributeError: object has no attribute iteritems"
  | .array et, v =>
    (iterElems v).map (fun xs =>
      finishReport (arrScanEntries (xs.map (fun x => wrap (validateE et x))) 0))
  | .optional t, v =>
    if isAbsent v then .ok .ok else .ok (wrap (validateE t v))
  | .alternation opts, v => .ok (altGo opts v)
  | .and ts, v => .ok (andGo ts v)
  | .extensibleDict t, v =>
    match v with
    | .dict es => .ok (finishReport (extGo t es))
    | _ => .error "AttributeError: object has no attribute get"
  | .exactDict t, v =>
    match pySet v with
    | .error e => .error e
    | .ok s =>
      let extra := s.filter (fun x => !(t.any (fun kv => pyEq x (.str kv.1))))
      if extra.isEmpty then
        -- inherited ExtensibleDictDescriptor._validate
        match v with
        | .dict es => .ok (finishReport (extGo t es))
        | _ => .error "AttributeError: object has no attribute get"
      else
        match joinStrs extra with
        | .ok names => .ok (.msg ("Unexpected properties: " ++ names))
        | .error e => .error e
  | .list ts, v =>
    match pyLen v with
    | .error e => .error e
    | .ok n =>
      if n ≠ ts.length then
        .ok (.msg ("Length mismatch: expected array of length " ++ toString ts.length))
      else
        match listGo ts v 0 with
        | .error e => .error e
        | .ok entries => .ok (finishReport entries)

/-- The option loop of GeneralAlternationDescriptor._validate: return
`False` at the first falsy (matching) option, otherwise record every
option's failure under its own key. -/
def altGo : List (RKey × Desc) → JValue → Report
  | [], _ => .dict []
  | (k, t) :: rest, v =>
    let r := wrap (validateE t v)
    if r.truthy then
      match altGo rest v with
      | .dict es => .dict ((k, r) :: es)
      | other => other
    else .ok

/-- The clause loop of AndDescriptor._validate: return the first truthy
(failing) clause's report, else `False`. -/
def andGo : List Desc → JValue → Report
  | [], _ => .ok
  | t :: rest, v =>
    let r := wrap (validateE t v)
    if r.truthy then r else andGo rest v

/-- The key loop of ExtensibleDictDescriptor._validate: run each declared
key's descriptor on `v.get(key, AbsentValue(key))`, recording failures. -/
def extGo : List (String × Desc) → List (String × JValue) → List (RKey × Report)
  | [], _ => []
  | (k, dt) :: rest, es =>
    let r := wrap (validateE dt (getOrAbsent es k))
    if r.truthy then (RKey.s k, r) :: extGo rest es else extGo rest es

/-- The index loop of ListDescriptor._validate: validate `v[i]` against
descriptor i, recording failing reports under `str(i)`; indexing errors
propagate as exceptions. -/
def listGo : List Desc → JValue → Nat → Except String (List (RKey × Report))
  | [], _, _ => .ok []
  | t :: rest, v, i =>
    match pyIndex v i with
    | .error e => .error e
    | .ok x =>
      let r := wrap (validateE t x)
      match listGo rest v (i + 1) with
      | .error e => .error e
      | .ok entries => .ok (if r.truthy then (RKey.s (toString i), r) :: entries else entries)
end

/-- Descriptor.validate: `_validate` with every raised exception caught
and downgraded to a "Predicate failed" leaf message. -/
def validate (d : Desc) (v : JValue) : Report :=
  wrap (validateE d v)

/-- Raw proto-schemas: the uncompiled inputs of `expand` — an
already-built Descriptor, a dict/list/scalar literal, or an opaque host
object of a type `expand` has no case for (`other`). -/
inductive Proto where
  | desc (d : Desc)
  | dict (entries : List (String × Proto))
  | list (xs : List Proto)
  | str (s : String)
  | int (n : Int)
  | float (q : Rat)
  | bool (b : Bool)
  | null
  | other

/-- Python truthiness of the value popped for the "_extensible" marker. -/
def protoTruthy : Proto → Bool
  | .desc _ => true
  | .dict es => !es.isEmpty
  | .list xs => !xs.isEmpty
  | .str s => s.length != 0
  | .int n => n != 0
  | .float q => q != 0
  | .bool b => b
  | .null => false
  | .other => true

mutual
/-- expand(t).  Dispatch order follows the source: Descriptor, dict
(popping "_extensible" and choosing Extensible vs Exact), list, str,
int-or-float, bool, None, otherwise InvalidDescriptor.  Because
`isinstance(True, int)` holds in Python, boolean protos are taken by the
`isinstance(t, int) or isinstance(t, float)` branch and become
ExactNumberDescriptor values; the later `isinstance(t, bool)` branch of
the source is unreachable. -/
def expand : Proto → Except String Desc
  | .desc d => .ok d
  | .dict es =>
    match expandEntriesSkipMarker es with
    | .error e => .error e
    | .ok t =>
      .ok (if protoTruthy ((es.lookup "_extensible").getD (Proto.bool false))
           then .extensibleDict t
           else .exactDict t)
  | .list xs =>
    match expandList xs with
    | .error e => .error e
    | .ok ds => .ok (.list ds)
  | .str s => .ok (.exactString (.str s))
  | .int n => .ok (.exactNumber (.int n))
  | .float q => .ok (.exactNumber (.float q))
  | .bool b => .ok (.exactNumber (.bool b))
  | .null => .ok .exactNull
  | .other => .error "Invalid proto-descriptor passed to expand"

/-- expand_dict over a dict literal from which the "_extensible" marker
key has been popped (the pop is modelled by skipping the key here). -/
def expandEntriesSkipMarker : List (String × Proto) → Except String (List (String × Desc))
  | [] => .ok []
  | (k, p) :: rest =>
    if k == "_extensible" then expandEntriesSkipMarker rest
    else
      match expand p with
      | .error e => .error e
      | .ok d =>
        match expandEntriesSkipMarker rest with
        | .error e => .error e
        | .ok ds => .ok ((k, d) :: ds)

/-- expand_list. -/
def expandList : List Proto → Except String (List Desc)
  | [] => .ok []
  | p :: rest =>
    match expand p with
    | .error e => .error e
    | .ok d =>
      match expandList rest with
      | .error e => .error e
      | .ok ds => .ok (d :: ds)
end

/-- expand_dict on a raw dict (no marker popping), as used by
GeneralAlternationDescriptor.__init__ via or_dict. -/
def expandEntriesRaw : List (String × Proto) → Except String (List (RKey × Desc))
  | [] => .ok []
  | (k, p) :: rest =>
    match expand p with
    | .error e => .error e
    | .ok d =>
      match expandEntriesRaw rest with
      | .error e => .error e
      | .ok ds => .ok ((RKey.s k, d) :: ds)

/-- expand_dict on dict(zip(range(len(optionlist)), optionlist)): each
option keyed by its position, each value expanded. -/
def mkOrGo : List Proto → Nat → Except String (List (RKey × Desc))
  | [], _ => .ok []
  | p :: rest, i =>
    match expand p with
    | .error e => .error e
    | .ok d =>
      match mkOrGo rest (i + 1) with
      | .error e => .error e
      | .ok ds => .ok ((RKey.i i, d) :: ds)

/-- PositionalAlternationDescriptor (`_or`): rejects an empty option
list, then builds dict(zip(range(len(optionlist)), optionlist)) and
expands each option.  Iteration order of the small-int-keyed dict is
modelled as 0, 1, 2, ... -/
def mkOr (optionlist : List Proto) : Except String Desc :=
  if optionlist.isEmpty then .error "_or with no options"
  else (mkOrGo optionlist 0).map Desc.alternation

/-- NamedAlternationDescriptor (`or_dict`): requires a non-empty dict. -/
def mkOrDict (options : Proto) : Except String Desc :=
  match options with
  | .dict es =>
    if es.isEmpty then .error "or_dict with non-dictionary or no options"
    else (expandEntriesRaw es).map Desc.alternation
  | _ => .error "or_dict with non-dictionary or no options"

/-- AndDescriptor (`_and`): no emptiness check — zero clauses are
accepted. -/
def mkAnd (schemas : List Proto) : Except String Desc :=
  (expandList schemas).map Desc.and

/-- OptionalDescriptor constructor. -/
def mkOptional (p : Proto) : Except String Desc :=
  (expand p).map Desc.optional

/-- NegationDescriptor constructor. -/
def mkNot (p : Proto) : Except String Desc :=
  (expand p).map Desc.negation

/-- MapDescriptor constructor (`dictionary`). -/
def mkMap (kp vp : Proto) : Except String Desc :=
  match expand kp with
  | .error e => .error e
  | .ok kt =>
    match expand vp with
    | .error e => .error e
    | .ok vt => .ok (.map kt vt)

/-- ArrayDescriptor constructor (`array_of`). -/
def mkArray (p : Proto) : Except String Desc :=
  (expand p).map Desc.array

mutual
/-- Structural sanity of a compiled descriptor tree: every alternation
node carries at least one option (which is what the public `or_dict` and
`_or` constructors enforce), recursively. -/
def DescWF : Desc → Bool
  | .negation t => DescWF t
  | .map kt vt => DescWF kt && DescWF vt
  | .array t => DescWF t
  | .optional t => DescWF t
  | .alternation opts => !opts.isEmpty && DescWFAlt opts
  | .and ts => DescWFList ts
  | .extensibleDict t => DescWFEntries t
  | .exactDict t => DescWFEntries t
  | .list ts => DescWFList ts
  | _ => true

def DescWFAlt : List (RKey × Desc) → Bool
  | [] => true
  | (_, t) :: rest => DescWF t && DescWFAlt rest

def DescWFList : List Desc → Bool
  | [] => true
  | t :: rest => DescWF t && DescWFList rest

def DescWFEntries : List (String × Desc) → Bool
  | [] => true
  | (_, t) :: rest => DescWF t && DescWFEntries rest
end

mutual
/-- Well-formedness of a validation result: the no-error marker, or a
report whose messages are non-empty strings and whose dicts are
non-empty at every level — never an empty container standing in for
"no error". -/
def ReportWF : Report → Bool
  | .ok => true
  | .msg s => s.length != 0
  | .dict es => !es.isEmpty && ReportWFL es

def ReportWFL : List (RKey × Report) → Bool
  | [] => true
  | (_, r) :: rest => ReportWF r && ReportWFL rest
end

mutual
/-- A proto-schema all of whose embedded pre-built descriptors are
structurally sane (`DescWF`).  Literal-only protos trivially satisfy
this. -/
def ProtoWF : Proto → Bool
  | .desc d => DescWF d
  | .dict es => ProtoWFEntries es
  | .list xs => ProtoWFList xs
  | _ => true

def ProtoWFEntries : List (String × Proto) → Bool
  | [] => true
  | (_, p) :: rest => ProtoWF p && ProtoWFEntries rest

def ProtoWFList : List Proto → Bool
  | [] => true
  | p :: rest => ProtoWF p && ProtoWFList rest
end

/-! Helper lemmas. -/

theorem validate_def (d : Desc) (v : JValue) : validate d v = wrap (validateE d v) := rfl

theorem descSizeOf_pos (d : Desc) : 0 < sizeOf d := by
  cases d <;> simp +arith

theorem reportWF_msg_append (p t : String) (h : p.length ≠ 0) :
    ReportWF (.msg (p ++ t)) = true := by
  simp only [ReportWF, String.length_append, bne_iff_ne, ne_eq]
  omega

theorem reportWFL_iff (es : List (RKey × Report)) :
    ReportWFL es = true ↔ ∀ p ∈ es, ReportWF p.2 = true := by
  induction es with
  | nil => simp [ReportWFL]
  | cons hd tl ih =>
    obtain ⟨k, r⟩ := hd
    simp [ReportWFL, ih]

theorem descWFAlt_mem {opts : List (RKey × Desc)} (h : DescWFAlt opts = true) :
    ∀ p ∈ opts, DescWF p.2 = true := by
  induction opts with
  | nil => simp
  | cons hd tl ih =>
    obtain ⟨k, t⟩ := hd
    simp only [DescWFAlt, Bool.and_eq_true] at h
    intro p hp
    rcases List.mem_cons.mp hp with rfl | hp'
    · exact h.1
    · exact ih h.2 p hp'

theorem descWFList_mem {ts : List Desc} (h : DescWFList ts = true) :
    ∀ t ∈ ts, DescWF t = true := by
  induction ts with
  | nil => simp
  | cons hd tl ih =>
    simp only [DescWFList, Bool.and_eq_true] at h
    intro t ht
    rcases List.mem_cons.mp ht with rfl | ht'
    · exact h.1
    · exact ih h.2 t ht'

theorem descWFEntries_mem {t : List (String × Desc)} (h : DescWFEntries t = true) :
    ∀ p ∈ t, DescWF p.2 = true := by
  induction t with
  | nil => simp
  | cons hd tl ih =>
    obtain ⟨k, d⟩ := hd
    simp only [DescWFEntries, Bool.and_eq_true] at h
    intro p hp
    rcases List.mem_cons.mp hp with rfl | hp'
    · exact h.1
    · exact ih h.2 p hp'

theorem exactCheck_wf (lit v : JValue) : ReportWF (exactCheck lit v) = true := by
  unfold exactCheck
  split
  · rfl
  · split
    · exact reportWF_msg_append "Type mismatch: expected " _ (by decide)
    · exact reportWF_msg_append "Value mismatch: expected " _ (by decide)

theorem finishReport_wf {entries : List (RKey × Report)}
    (h : ReportWFL entries = true) : ReportWF (finishReport entries) = true := by
  unfold finishReport
  split
  · rfl
  · rename_i hne
    simp only [ReportWF, Bool.and_eq_true]
    exact ⟨by simpa using hne, h⟩

theorem mapScanEntries_wf {l : List (String × Report × Report)}
    (h : ∀ x ∈ l, ReportWF x.2.1 = true ∧ ReportWF x.2.2 = true) :
    ReportWFL (mapScanEntries l) = true := by
  induction l with
  | nil => rfl
  | cons hd tl ih =>
    obtain ⟨k, kr, vr⟩ := hd
    have hhd := h (k, kr, vr) (List.mem_cons_self _ _)
    have htl := ih (fun x hx => h x (List.mem_cons_of_mem _ hx))
    simp only [mapScanEntries]
    split
    · simp only [ReportWFL, Bool.and_eq_true]
      exact ⟨hhd.1, htl⟩
    · split
      · simp only [ReportWFL, Bool.and_eq_true]
        exact ⟨hhd.2, htl⟩
      · exact htl

theorem arrScanEntries_wf {rs : List Report}
    (h : ∀ r ∈ rs, ReportWF r = true) :
    ∀ i, ReportWFL (arrScanEntries rs i) = true := by
  induction rs with
  | nil => intro i; rfl
  | cons hd tl ih =>
    intro i
    have hhd := h hd (List.mem_cons_self _ _)
    have htl := ih (fun r hr => h r (List.mem_cons_of_mem _ hr))
    simp only [arrScanEntries]
    split
    · simp only [ReportWFL, Bool.and_eq_true]
      exact ⟨hhd, htl _⟩
    · exact htl _

/-- Full behaviour of the alternation loop: either some option matched —
then the loop stopped at the first matching option (in iteration order)
and returned the no-error marker — or every option failed and the result
is the dict pairing every option's key with that option's own failure. -/
theorem altGo_cases (opts : List (RKey × Desc)) (v : JValue) :
    (∃ pre k t post, opts = pre ++ (k, t) :: post ∧
      (∀ p ∈ pre, (validate p.2 v).truthy = true) ∧
      (validate t v).truthy = false ∧ altGo opts v = .ok) ∨
    ((∀ p ∈ opts, (validate p.2 v).truthy = true) ∧
      altGo opts v = .dict (opts.map (fun p => (p.1, validate p.2 v)))) := by
  induction opts with
  | nil =>
    right
    constructor
    · simp
    · rfl
  | cons hd tl ih =>
    obtain ⟨k, t⟩ := hd
    by_cases hr : (validate t v).truthy = true
    · rcases ih with ⟨pre, k', t', post, heq, hpre, hfail, hok⟩ | ⟨hall, hdict⟩
      · left
        refine ⟨(k, t) :: pre, k', t', post, by rw [heq]; rfl, ?_, hfail, ?_⟩
        · intro p hp
          rcases List.mem_cons.mp hp with rfl | hp'
          · exact hr
          · exact hpre p hp'
        · simp only [altGo, ← validate_def, hr, if_true, hok]
      · right
        constructor
        · intro p hp
          rcases List.mem_cons.mp hp with rfl | hp'
          · exact hr
          · exact hall p hp'
        · simp only [altGo, ← validate_def, hr, if_true, hdict, List.map_cons]
    · left
      refine ⟨[], k, t, tl, rfl, by simp, by simpa using hr, ?_⟩
      simp only [altGo, ← validate_def]
      simp [hr]

theorem andGo_wf {ts : List Desc} (h : ∀ t ∈ ts, ∀ v, ReportWF (validate t v) = true) :
    ∀ v, ReportWF (andGo ts v) = true := by
  induction ts with
  | nil => intro v; rfl
  | cons hd tl ih =>
    intro v
    simp only [andGo, ← validate_def]
    split
    · exact h hd (List.mem_cons_self _ _) v
    · exact ih (fun t ht v' => h t (List.mem_cons_of_mem _ ht) v') v

theorem extGo_wf {t : List (String × Desc)}
    (h : ∀ p ∈ t, ∀ v, ReportWF (validate p.2 v) = true) :
    ∀ es, ReportWFL (extGo t es) = true := by
  induction t with
  | nil => intro es; rfl
  | cons hd tl ih =>
    obtain ⟨k, dt⟩ := hd
    intro es
    simp only [extGo, ← validate_def]
    split
    · simp only [ReportWFL, Bool.and_eq_true]
      exact ⟨h (k, dt) (List.mem_cons_self _ _) _,
             ih (fun p hp v' => h p (List.mem_cons_of_mem _ hp) v') es⟩
    · exact ih (fun p hp v' => h p (List.mem_cons_of_mem _ hp) v') es

theorem listGo_wf {ts : List Desc}
    (h : ∀ t ∈ ts, ∀ v, ReportWF (validate t v) = true) :
    ∀ v i entries, listGo ts v i = .ok entries → ReportWFL entries = true := by
  induction ts with
  | nil =>
    intro v i entries heq
    simp only [listGo] at heq
    cases heq
    rfl
  | cons hd tl ih =>
    intro v i entries heq
    simp only [listGo, ← validate_def] at heq
    cases hidx : pyIndex v i with
    | error e => rw [hidx] at heq; cases heq
    | ok x =>
      rw [hidx] at heq
      cases hrest : listGo tl v (i + 1) with
      | error e => rw [hrest] at heq; cases heq
      | ok others =>
        rw [hrest] at heq
        have hothers := ih (fun t ht v' => h t (List.mem_cons_of_mem _ ht) v') v (i + 1) others hrest
        cases heq
        split
        · simp only [ReportWFL, Bool.and_eq_true]
          exact ⟨h hd (List.mem_cons_self _ _) _, hothers⟩
        · exact hothers

theorem reportWF_predicate_failed (e : String) :
    ReportWF (.msg ("Predicate failed: " ++ e)) = true :=
  reportWF_msg_append _ _ (by decide)

/-- Unfolded form of `validate` on an array descriptor. -/
theorem validate_array_eval (et : Desc) (v : JValue) :
    validate (.array et) v =
      match iterElems v with
      | .error e => .msg ("Predicate failed: " ++ e)
      | .ok xs => finishReport (arrScanEntries (xs.map (fun x => validate et x)) 0) := by
  simp only [validate_def, validateE]
  split <;> rename_i h <;> rw [h] <;> rfl

/-- Unfolded form of `validate` on an alternation descriptor. -/
theorem validate_alternation_eval (opts : List (RKey × Desc)) (v : JValue) :
    validate (.alternation opts) v = altGo opts v := rfl

/-- Unfolded form of `validate` on a conjunction descriptor. -/
theorem validate_and_eval (ts : List Desc) (v : JValue) :
    validate (.and ts) v = andGo ts v := rfl

/-- Unfolded form of `validate` on an extensible-dict descriptor. -/
theorem validate_extensibleDict_eval (t : List (String × Desc)) (v : JValue) :
    validate (.extensibleDict t) v =
      match v with
      | .dict es => finishReport (extGo t es)
      | _ => .msg ("Predicate failed: " ++ "AttributeError: object has no attribute get") := by
  cases v <;> rfl

/-- Unfolded form of `validate` on an exact-dict descriptor. -/
theorem validate_exactDict_eval (t : List (String × Desc)) (v : JValue) :
    validate (.exactDict t) v =
      match pySet v with
      | .error e => .msg ("Predicate failed: " ++ e)
      | .ok s =>
        if (s.filter (fun x => !(t.any (fun kv => pyEq x (.str kv.1))))).isEmpty then
          match v with
          | .dict es => finishReport (extGo t es)
          | _ => .msg ("Predicate failed: " ++ "AttributeError: object has no attribute get")
        else
          match joinStrs (s.filter (fun x => !(t.any (fun kv => pyEq x (.str kv.1))))) with
          | .ok names => .msg ("Unexpected properties: " ++ names)
          | .error e => .msg ("Predicate failed: " ++ e) := by
  simp only [validate_def, validateE]
  split
  · rfl
  · split
    · cases v <;> rfl
    · split <;> rfl

/-- Unfolded form of `validate` on a fixed-list descriptor. -/
theorem validate_list_eval (ts : List Desc) (v : JValue) :
    validate (.list ts) v =
      match pyLen v with
      | .error e => .msg ("Predicate failed: " ++ e)
      | .ok n =>
        if n ≠ ts.length then
          .msg ("Length mismatch: expected array of length " ++ toString ts.length)
        else
          match listGo ts v 0 with
          | .error e => .msg ("Predicate failed: " ++ e)
          | .ok entries => finishReport entries := by
  simp only [validate_def, validateE]
  split
  · rfl
  · split
    · rfl
    · split <;> rfl

theorem sizeOf_lt_of_mem_alt {opts : List (RKey × Desc)} {k : RKey} {t : Desc}
    (h : (k, t) ∈ opts) : sizeOf t < sizeOf (Desc.alternation opts) := by
  have h1 := List.sizeOf_lt_of_mem h
  have h2 : sizeOf (k, t) = 1 + sizeOf k + sizeOf t := by simp
  have h3 : sizeOf (Desc.alternation opts) = 1 + sizeOf opts := by simp
  omega

theorem sizeOf_lt_of_mem_and {ts : List Desc} {t : Desc}
    (h : t ∈ ts) : sizeOf t < sizeOf (Desc.and ts) := by
  have h1 := List.sizeOf_lt_of_mem h
  have h2 : sizeOf (Desc.and ts) = 1 + sizeOf ts := by simp
  omega

theorem sizeOf_lt_of_mem_list {ts : List Desc} {t : Desc}
    (h : t ∈ ts) : sizeOf t < sizeOf (Desc.list ts) := by
  have h1 := List.sizeOf_lt_of_mem h
  have h2 : sizeOf (Desc.list ts) = 1 + sizeOf ts := by simp
  omega

theorem sizeOf_lt_of_mem_ext {t : List (String × Desc)} {k : String} {dt : Desc}
    (h : (k, dt) ∈ t) : sizeOf dt < 1 + sizeOf t := by
  have h1 := List.sizeOf_lt_of_mem h
  have h2 : sizeOf (k, dt) = 1 + sizeOf k + sizeOf dt := by simp
  omega

/-- Every validation outcome of a structurally sane descriptor is
well-formed: the no-error marker, or a report with non-empty messages
and non-empty dicts all the way down. -/
theorem validate_wf_aux :
    ∀ n d, sizeOf d ≤ n → DescWF d = true → ∀ v, ReportWF (validate d v) = true := by
  intro n
  induction n with
  | zero =>
    intro d hsz
    exact absurd hsz (by have := descSizeOf_pos d; omega)
  | succ n IH =>
    intro d hsz hwf v
    cases d with
    | regexp pat matcher =>
      cases v <;> simp only [validate_def, validateE, wrap] <;>
        first
        | (apply reportWF_predicate_failed)
        | (split
           · rfl
           · exact reportWF_msg_append "regexp failed: " _ (by decide))
    | number =>
      simp only [validate_def, validateE, wrap]
      split
      · rfl
      · decide
    | string =>
      simp only [validate_def, validateE, wrap]
      split
      · rfl
      · decide
    | boolean =>
      cases v <;> simp only [validate_def, validateE, wrap] <;> decide
    | nonemptyString =>
      cases v <;> simp only [validate_def, validateE, wrap] <;>
        first
        | decide
        | (split
           · rfl
           · decide)
    | exactString lit => exact exactCheck_wf lit v
    | exactNumber lit => exact exactCheck_wf lit v
    | exactBool lit => exact exactCheck_wf lit v
    | exactNull =>
      cases v <;> simp only [validate_def, validateE, wrap] <;> decide
    | wild => rfl
    | negation t =>
      simp only [validate_def, validateE, wrap]
      split
      · rfl
      · decide
    | optional t =>
      have hszt : sizeOf t ≤ n := by
        have : sizeOf (Desc.optional t) = 1 + sizeOf t := by simp
        omega
      have hwft : DescWF t = true := hwf
      cases v <;>
        first
        | rfl
        | exact IH t hszt hwft _
    | map kt vt =>
      have hsp : sizeOf (Desc.map kt vt) = 1 + sizeOf kt + sizeOf vt := by simp
      have hkt : sizeOf kt ≤ n := by omega
      have hvt : sizeOf vt ≤ n := by omega
      have hw : DescWF kt = true ∧ DescWF vt = true := by
        simpa [DescWF, Bool.and_eq_true] using hwf
      cases v with
      | dict es =>
        simp only [validate_def, validateE, wrap]
        apply finishReport_wf
        apply mapScanEntries_wf
        intro x hx
        obtain ⟨kv, hkv, rfl⟩ := List.mem_map.mp hx
        exact ⟨IH kt hkt hw.1 _, IH vt hvt hw.2 _⟩
      | _ => exact reportWF_predicate_failed _
    | array et =>
      have hszt : sizeOf et ≤ n := by
        have : sizeOf (Desc.array et) = 1 + sizeOf et := by simp
        omega
      have hwft : DescWF et = true := hwf
      rw [validate_array_eval]
      split
      · exact reportWF_predicate_failed _
      · apply finishReport_wf
        apply arrScanEntries_wf
        intro r hr
        obtain ⟨x, hx, rfl⟩ := List.mem_map.mp hr
        exact IH et hszt hwft x
    | alternation opts =>
      have hw : (!opts.isEmpty) = true ∧ DescWFAlt opts = true := by
        simpa [DescWF, Bool.and_eq_true] using hwf
      have hmem : ∀ p ∈ opts, ∀ v', ReportWF (validate p.2 v') = true := by
        intro p hp v'
        obtain ⟨k, t⟩ := p
        have hlt := sizeOf_lt_of_mem_alt hp
        exact IH t (by omega) (descWFAlt_mem hw.2 _ hp) v'
      simp only [validate_def, validateE, wrap]
      rcases altGo_cases opts v with ⟨_, _, _, _, _, _, _, hok⟩ | ⟨hall, hdict⟩
      · rw [hok]; rfl
      · rw [hdict]
        simp only [ReportWF, Bool.and_eq_true]
        constructor
        · cases opts with
          | nil => simp at hw
          | cons hd tl => simp
        · rw [reportWFL_iff]
          intro p hp
          obtain ⟨q, hq, rfl⟩ := List.mem_map.mp hp
          exact hmem q hq v
    | and ts =>
      have hmem : ∀ t ∈ ts, ∀ v', ReportWF (validate t v') = true := by
        intro t ht v'
        have hlt := sizeOf_lt_of_mem_and ht
        exact IH t (by omega) (descWFList_mem hwf _ ht) v'
      simpa only [validate_def, validateE, wrap] using andGo_wf hmem v
    | extensibleDict t =>
      have hsp : sizeOf (Desc.extensibleDict t) = 1 + sizeOf t := by simp
      have hmem : ∀ p ∈ t, ∀ v', ReportWF (validate p.2 v') = true := by
        intro p hp v'
        obtain ⟨k, dt⟩ := p
        have hlt := sizeOf_lt_of_mem_ext hp
        exact IH dt (by omega) (descWFEntries_mem hwf _ hp) v'
      cases v with
      | dict es =>
        simp only [validate_def, validateE, wrap]
        exact finishReport_wf (extGo_wf hmem es)
      | _ => exact reportWF_predicate_failed _
    | exactDict t =>
      have hsp : sizeOf (Desc.exactDict t) = 1 + sizeOf t := by simp
      have hmem : ∀ p ∈ t, ∀ v', ReportWF (validate p.2 v') = true := by
        intro p hp v'
        obtain ⟨k, dt⟩ := p
        have hlt := sizeOf_lt_of_mem_ext hp
        exact IH dt (by omega) (descWFEntries_mem hwf _ hp) v'
      rw [validate_exactDict_eval]
      split
      · exact reportWF_predicate_failed _
      · split
        · split
          · exact finishReport_wf (extGo_wf hmem _)
          · exact reportWF_predicate_failed _
        · split
          · exact reportWF_msg_append "Unexpected properties: " _ (by decide)
          · exact reportWF_predicate_failed _
    | list ts =>
      have hsp : sizeOf (Desc.list ts) = 1 + sizeOf ts := by simp
      have hmem : ∀ t ∈ ts, ∀ v', ReportWF (validate t v') = true := by
        intro t ht v'
        have hlt := sizeOf_lt_of_mem_list ht
        exact IH t (by omega) (descWFList_mem hwf _ ht) v'
      rw [validate_list_eval]
      split
      · exact reportWF_predicate_failed _
      · split
        · exact reportWF_msg_append "Length mismatch: expected array of length " _ (by decide)
        · split
          · exact reportWF_predicate_failed _
          · rename_i entries hG
            exact finishReport_wf (listGo_wf hmem v 0 entries hG)

theorem protoSizeOf_pos (p : Proto) : 0 < sizeOf p := by
  cases p <;> simp +arith

theorem sizeOf_lt_of_mem_pdict {es : List (String × Proto)} {k : String} {p : Proto}
    (h : (k, p) ∈ es) : sizeOf p < sizeOf (Proto.dict es) := by
  have h1 := List.sizeOf_lt_of_mem h
  have h2 : sizeOf (k, p) = 1 + sizeOf k + sizeOf p := by simp
  have h3 : sizeOf (Proto.dict es) = 1 + sizeOf es := by simp
  omega

theorem sizeOf_lt_of_mem_plist {xs : List Proto} {p : Proto}
    (h : p ∈ xs) : sizeOf p < sizeOf (Proto.list xs) := by
  have h1 := List.sizeOf_lt_of_mem h
  have h2 : sizeOf (Proto.list xs) = 1 + sizeOf xs := by simp
  omega

theorem protoWFEntries_mem {es : List (String × Proto)} (h : ProtoWFEntries es = true) :
    ∀ q ∈ es, ProtoWF q.2 = true := by
  induction es with
  | nil => simp
  | cons hd tl ih =>
    obtain ⟨k, p⟩ := hd
    simp only [ProtoWFEntries, Bool.and_eq_true] at h
    intro q hq
    rcases List.mem_cons.mp hq with rfl | hq2
    · exact h.1
    · exact ih h.2 q hq2

theorem protoWFList_mem {xs : List Proto} (h : ProtoWFList xs = true) :
    ∀ p ∈ xs, ProtoWF p = true := by
  induction xs with
  | nil => simp
  | cons hd tl ih =>
    simp only [ProtoWFList, Bool.and_eq_true] at h
    intro p hp
    rcases List.mem_cons.mp hp with rfl | hp2
    · exact h.1
    · exact ih h.2 p hp2

theorem expandEntriesSkipMarker_wf {es : List (String × Proto)}
    (hIH : ∀ q ∈ es, ProtoWF q.2 = true → ∀ d, expand q.2 = .ok d → DescWF d = true)
    (hwf : ProtoWFEntries es = true) :
    ∀ t, expandEntriesSkipMarker es = .ok t → DescWFEntries t = true := by
  induction es with
  | nil =>
    intro t ht
    simp only [expandEntriesSkipMarker] at ht
    cases ht
    rfl
  | cons hd tl ih =>
    obtain ⟨k, p⟩ := hd
    simp only [ProtoWFEntries, Bool.and_eq_true] at hwf
    have hIH2 : ∀ q ∈ tl, ProtoWF q.2 = true → ∀ d, expand q.2 = .ok d → DescWF d = true :=
      fun q hq => hIH q (List.mem_cons_of_mem _ hq)
    intro t ht
    simp only [expandEntriesSkipMarker] at ht
    by_cases hk : (k == "_extensible") = true
    · rw [if_pos hk] at ht
      exact ih hIH2 hwf.2 t ht
    · rw [if_neg hk] at ht
      cases hp : expand p with
      | error e => rw [hp] at ht; cases ht
      | ok d =>
        rw [hp] at ht
        cases hrest : expandEntriesSkipMarker tl with
        | error e => rw [hrest] at ht; cases ht
        | ok ds =>
          rw [hrest] at ht
          cases ht
          simp only [DescWFEntries, Bool.and_eq_true]
          exact ⟨hIH (k, p) (List.mem_cons_self _ _) hwf.1 d hp, ih hIH2 hwf.2 ds hrest⟩

theorem expandList_wf {xs : List Proto}
    (hIH : ∀ p ∈ xs, ProtoWF p = true → ∀ d, expand p = .ok d → DescWF d = true)
    (hwf : ProtoWFList xs = true) :
    ∀ ds, expandList xs = .ok ds → DescWFList ds = true := by
  induction xs with
  | nil =>
    intro ds hds
    simp only [expandList] at hds
    cases hds
    rfl
  | cons hd tl ih =>
    simp only [ProtoWFList, Bool.and_eq_true] at hwf
    have hIH2 : ∀ p ∈ tl, ProtoWF p = true → ∀ d, expand p = .ok d → DescWF d = true :=
      fun p hp => hIH p (List.mem_cons_of_mem _ hp)
    intro ds hds
    simp only [expandList] at hds
    cases hp : expand hd with
    | error e => rw [hp] at hds; cases hds
    | ok d =>
      rw [hp] at hds
      cases hrest : expandList tl with
      | error e => rw [hrest] at hds; cases hds
      | ok ds2 =>
        rw [hrest] at hds
        cases hds
        simp only [DescWFList, Bool.and_eq_true]
        exact ⟨hIH hd (List.mem_cons_self _ _) hwf.1 d hp, ih hIH2 hwf.2 ds2 hrest⟩

/-- expand maps well-formed proto-schemas to well-formed descriptors
(a proto-schema is well-formed when every descriptor literally embedded
in it is; literal-only protos always are). -/
theorem expand_wf_aux :
    ∀ n p, sizeOf p ≤ n → ProtoWF p = true → ∀ d, expand p = .ok d → DescWF d = true := by
  intro n
  induction n with
  | zero =>
    intro p hsz
    exact absurd hsz (by have := protoSizeOf_pos p; omega)
  | succ n IH =>
    intro p hsz hwf d hd
    cases p with
    | desc d0 =>
      simp only [expand] at hd
      cases hd
      exact hwf
    | dict es =>
      have hmem : ∀ q ∈ es, ProtoWF q.2 = true → ∀ d, expand q.2 = .ok d → DescWF d = true := by
        intro q hq
        obtain ⟨k, pq⟩ := q
        have := sizeOf_lt_of_mem_pdict hq
        exact IH pq (by omega)
      simp only [expand] at hd
      cases ht : expandEntriesSkipMarker es with
      | error e => rw [ht] at hd; cases hd
      | ok t =>
        rw [ht] at hd
        cases hd
        have hts := expandEntriesSkipMarker_wf hmem hwf t ht
        split <;> exact hts
    | list xs =>
      have hmem : ∀ q ∈ xs, ProtoWF q = true → ∀ d, expand q = .ok d → DescWF d = true := by
        intro q hq
        have := sizeOf_lt_of_mem_plist hq
        exact IH q (by omega)
      simp only [expand] at hd
      cases hds : expandList xs with
      | error e => rw [hds] at hd; cases hd
      | ok ds =>
        rw [hds] at hd
        cases hd
        exact expandList_wf hmem hwf ds hds
    | str s => simp only [expand] at hd; cases hd; rfl
    | int n2 => simp only [expand] at hd; cases hd; rfl
    | float q => simp only [expand] at hd; cases hd; rfl
    | bool b => simp only [expand] at hd; cases hd; rfl
    | null => simp only [expand] at hd; cases hd; rfl
    | other => simp only [expand] at hd; cases hd

theorem expand_wf {p : Proto} (hwf : ProtoWF p = true) {d : Desc}
    (hd : expand p = .ok d) : DescWF d = true :=
  expand_wf_aux (sizeOf p) p (le_refl _) hwf d hd

theorem mkOrGo_wf {l : List Proto} (hwf : ∀ q ∈ l, ProtoWF q = true) :
    ∀ i ds, mkOrGo l i = .ok ds → DescWFAlt ds = true ∧ ds.length = l.length := by
  induction l with
  | nil =>
    intro i ds hds
    simp only [mkOrGo] at hds
    cases hds
    exact ⟨rfl, rfl⟩
  | cons hd tl ih =>
    intro i ds hds
    simp only [mkOrGo] at hds
    cases hp : expand hd with
    | error e => rw [hp] at hds; cases hds
    | ok d =>
      rw [hp] at hds
      cases hrest : mkOrGo tl (i + 1) with
      | error e => rw [hrest] at hds; cases hds
      | ok ds2 =>
        rw [hrest] at hds
        cases hds
        have htl := ih (fun q hq => hwf q (List.mem_cons_of_mem _ hq)) (i + 1) ds2 hrest
        refine ⟨?_, by simpa using htl.2⟩
        simp only [DescWFAlt, Bool.and_eq_true]
        exact ⟨expand_wf (hwf hd (List.mem_cons_self _ _)) hp, htl.1⟩

theorem expandEntriesRaw_wf {es : List (String × Proto)} (hwf : ProtoWFEntries es = true) :
    ∀ ds, expandEntriesRaw es = .ok ds → DescWFAlt ds = true ∧ ds.length = es.length := by
  induction es with
  | nil =>
    intro ds hds
    simp only [expandEntriesRaw] at hds
    cases hds
    exact ⟨rfl, rfl⟩
  | cons hd tl ih =>
    obtain ⟨k, p⟩ := hd
    simp only [ProtoWFEntries, Bool.and_eq_true] at hwf
    intro ds hds
    simp only [expandEntriesRaw] at hds
    cases hp : expand p with
    | error e => rw [hp] at hds; cases hds
    | ok d =>
      rw [hp] at hds
      cases hrest : expandEntriesRaw tl with
      | error e => rw [hrest] at hds; cases hds
      | ok ds2 =>
        rw [hrest] at hds
        cases hds
        have htl := ih hwf.2 ds2 hrest
        refine ⟨?_, by simpa using htl.2⟩
        simp only [DescWFAlt, Bool.and_eq_true]
        exact ⟨expand_wf hwf.1 hp, htl.1⟩

theorem mkOr_wf {l : List Proto} (hwf : ∀ q ∈ l, ProtoWF q = true) {d : Desc}
    (hd : mkOr l = .ok d) : DescWF d = true := by
  unfold mkOr at hd
  split at hd
  · cases hd
  · rename_i hne
    cases hds : mkOrGo l 0 with
    | error e => rw [hds] at hd; cases hd
    | ok ds =>
      rw [hds] at hd
      simp only [Except.map] at hd
      cases hd
      have h := mkOrGo_wf hwf 0 ds hds
      simp only [DescWF, Bool.and_eq_true]
      constructor
      · cases ds with
        | nil =>
          exfalso
          have h2 := h.2
          cases l with
          | nil => exact hne rfl
          | cons a b => simp at h2
        | cons x xs => rfl
      · exact h.1

theorem mkOrDict_wf {o : Proto} (hwf : ProtoWF o = true) {d : Desc}
    (hd : mkOrDict o = .ok d) : DescWF d = true := by
  cases o with
  | dict es =>
    simp only [mkOrDict] at hd
    split at hd
    · cases hd
    · rename_i hne
      cases hds : expandEntriesRaw es with
      | error e => rw [hds] at hd; cases hd
      | ok ds =>
        rw [hds] at hd
        simp only [Except.map] at hd
        cases hd
        have h := expandEntriesRaw_wf hwf ds hds
        simp only [DescWF, Bool.and_eq_true]
        constructor
        · cases ds with
          | nil =>
            exfalso
            have h2 := h.2
            cases es with
            | nil => simp at hne
            | cons a b => simp at h2
          | cons x xs => rfl
        · exact h.1
  | desc d0 => simp only [mkOrDict] at hd; cases hd
  | list xs => simp only [mkOrDict] at hd; cases hd
  | str s => simp only [mkOrDict] at hd; cases hd
  | int n => simp only [mkOrDict] at hd; cases hd
  | float q => simp only [mkOrDict] at hd; cases hd
  | bool b => simp only [mkOrDict] at hd; cases hd
  | null => simp only [mkOrDict] at hd; cases hd
  | other => simp only [mkOrDict] at hd; cases hd


/-- Does a descriptor belong to the ExactBooleanDescriptor class? -/
def isExactBoolDesc : Desc → Bool
  | .exactBool _ => true
  | _ => false

/-! Claim theorems. -/

/-- C1: the claim asserts that `_or(string, number)` validated against
the boolean `true` yields the report with both options' failures, Number
rejecting the boolean.  The code does the opposite: `isinstance(True,
int)` holds in Python, so NumberDescriptor accepts the boolean and the
alternation succeeds with the no-error marker; the claimed two-entry
report does arise, but only for values that are neither strings nor
numbers nor booleans, e.g. null. -/
theorem C1_or_string_number_accepts_true :
    mkOr [Proto.desc .string, Proto.desc .number]
      = Except.ok (Desc.alternation [(.i 0, .string), (.i 1, .number)]) ∧
    validate (Desc.alternation [(.i 0, .string), (.i 1, .number)]) (.bool true) = .ok ∧
    validate Desc.number (.bool true) = .ok ∧
    validate (Desc.alternation [(.i 0, .string), (.i 1, .number)]) .null
      = .dict [(.i 0, .msg "Expected string"), (.i 1, .msg "Expected number")] :=
  ⟨rfl, rfl, rfl, rfl⟩

/-- C2: the claim asserts that every scalar proto is wrapped as the
ExactLiteral variant matching its kind — text/number/boolean/null.  The
text, number and null cases hold, but a boolean proto is captured by the
`isinstance(t, int) or isinstance(t, float)` branch of `expand` (bool
subclasses int), producing an Exact*Number* descriptor; the
`isinstance(t, bool)` branch returning ExactBooleanDescriptor is
unreachable. -/
theorem C2_expand_scalar_literals :
    (∀ s, expand (.str s) = .ok (.exactString (.str s))) ∧
    (∀ n : Int, expand (.int n) = .ok (.exactNumber (.int n))) ∧
    (∀ q : Rat, expand (.float q) = .ok (.exactNumber (.float q))) ∧
    expand .null = .ok .exactNull ∧
    (∀ b, expand (.bool b) = .ok (.exactNumber (.bool b))) ∧
    (expand (.bool true)).map isExactBoolDesc = .ok false :=
  ⟨fun _ => rfl, fun _ => rfl, fun _ => rfl, rfl, fun _ => rfl, rfl⟩

/-- C3: validate never propagates a fault: its only outcomes are the
inner `_validate` result passed through unchanged, or — when `_validate`
raised — the leaf message "Predicate failed: " followed by the
exception's description.  The second conjunct exhibits an actual caught
exception: validating an int against a Map descriptor (whose `_validate`
calls `v.iteritems()`). -/
theorem C3_validate_total_two_outcomes :
    (∀ d v, (∃ r, validateE d v = .ok r ∧ validate d v = r) ∨
            (∃ e, validateE d v = .error e ∧
                  validate d v = .msg ("Predicate failed: " ++ e))) ∧
    validate (.map .string .string) (.int 3)
      = .msg ("Predicate failed: " ++ "AttributeError: object has no attribute iteritems") := by
  constructor
  · intro d v
    cases h : validateE d v with
    | ok r => exact Or.inl ⟨r, rfl, by simp [validate_def, h, wrap]⟩
    | error e => exact Or.inr ⟨e, rfl, by simp [validate_def, h, wrap]⟩
  · rfl

/-- C4: compilation is idempotent: expanding a value that is already a
Descriptor returns it unchanged, hence re-expanding any successful
expansion is a no-op (and errors are preserved by the composition). -/
theorem C4_expand_idempotent :
    (∀ d, expand (.desc d) = .ok d) ∧
    (∀ p, (expand p >>= fun d => expand (.desc d)) = expand p) := by
  refine ⟨fun d => rfl, fun p => ?_⟩
  cases h : expand p with
  | ok d => rfl
  | error e => rfl

/-- C5: for every descriptor built through expand or the alternation
constructors (all of which yield well-formed trees — in particular
`_or`/`or_dict` reject empty option sets), validation returns either the
no-error marker or a well-formed report: non-empty messages and
non-empty report dicts at every level, never an empty container standing
in for "no error". -/
theorem C5_validate_wellformed :
    (∀ p d, ProtoWF p = true → expand p = .ok d → DescWF d = true) ∧
    (∀ l d, (∀ q ∈ l, ProtoWF q = true) → mkOr l = .ok d → DescWF d = true) ∧
    (∀ o d, ProtoWF o = true → mkOrDict o = .ok d → DescWF d = true) ∧
    (∀ d v, DescWF d = true → ReportWF (validate d v) = true) :=
  ⟨fun _ _ h1 h2 => expand_wf h1 h2,
   fun _ _ h1 h2 => mkOr_wf h1 h2,
   fun _ _ h1 h2 => mkOrDict_wf h1 h2,
   fun d v h => validate_wf_aux (sizeOf d) d (le_refl _) h v⟩

/-- C5 witness: the theorem applied at concrete inputs — a proto-schema
expanded to an exact dict, and an alternation validated against a value
that fails both options. -/
theorem C5_witness :
    DescWF (.exactDict [("a", .exactNull)]) = true ∧
    ReportWF (validate (Desc.alternation [(.i 0, .string), (.i 1, .number)]) .null) = true :=
  ⟨C5_validate_wellformed.1 (Proto.dict [("a", Proto.null)]) (.exactDict [("a", .exactNull)]) rfl rfl,
   C5_validate_wellformed.2.2.2 (Desc.alternation [(.i 0, .string), (.i 1, .number)]) .null rfl⟩


/-! Helpers for the dict-descriptor and alternation claims. -/

theorem pyEq_str (a b : String) : pyEq (.str a) (.str b) = (a == b) := rfl

theorem filter_of_map {α β : Type} (p : β → Bool) (f : α → β) (l : List α) :
    (l.map f).filter p = (l.filter (fun a => p (f a))).map f := by
  induction l with
  | nil => rfl
  | cons a l ih =>
    simp only [List.map_cons, List.filter_cons]
    cases p (f a) <;> simp [ih]

/-- The extensible-dict key loop in declarative form: each declared
key's descriptor is applied to the value at that key (or to the Absent
sentinel when the key is missing), and exactly the failing results are
kept, keyed by the declared key. -/
theorem extGo_spec (t : List (String × Desc)) (es : List (String × JValue)) :
    extGo t es =
      (t.map (fun kv => (RKey.s kv.1, validate kv.2 (getOrAbsent es kv.1)))).filter
        (fun p => p.2.truthy) := by
  induction t with
  | nil => rfl
  | cons hd tl ih =>
    obtain ⟨k, dt⟩ := hd
    simp only [extGo, ← validate_def, List.map_cons, List.filter_cons]
    cases h : (validate dt (getOrAbsent es k)).truthy <;> simp [h, ih]

/-- The keys of the value that are outside the descriptor's declared key
set (the `set(v) - set(self.t)` computation of ExactDictDescriptor, in
value iteration order). -/
def extraKeys (t : List (String × Desc)) (es : List (String × JValue)) : List String :=
  (es.map (fun kv => kv.1)).filter (fun k => !(t.any (fun tv => k == tv.1)))

theorem extra_eq (t : List (String × Desc)) (es : List (String × JValue)) :
    (es.map (fun kv => JValue.str kv.1)).filter
        (fun x => !(t.any (fun kv => pyEq x (.str kv.1))))
      = (extraKeys t es).map JValue.str := by
  unfold extraKeys
  rw [filter_of_map, filter_of_map, List.map_map]
  simp only [pyEq_str]
  rfl

theorem all_isInstStr_map (l : List String) : (l.map JValue.str).all isInstStr = true := by
  induction l with
  | nil => rfl
  | cons a l ih => simp [isInstStr, ih]

theorem filterMap_str_map (l : List String) :
    (l.map JValue.str).filterMap (fun x =>
      match x with
      | JValue.str s => some s
      | _ => none) = l := by
  induction l with
  | nil => rfl
  | cons a l ih => simpa using ih

theorem joinStrs_map_str (l : List String) :
    joinStrs (l.map JValue.str) = .ok (String.intercalate ", " l) := by
  unfold joinStrs
  rw [if_pos (all_isInstStr_map l), filterMap_str_map]

theorem lookup_filter_declared {t : List (String × Desc)} {k : String} {dt : Desc}
    (hmem : (k, dt) ∈ t) (es : List (String × JValue)) :
    (es.filter (fun kv => t.any (fun tv => kv.1 == tv.1))).lookup k = es.lookup k := by
  induction es with
  | nil => rfl
  | cons kv es ih =>
    obtain ⟨k2, w⟩ := kv
    by_cases hkk : (k == k2) = true
    · have he : k = k2 := beq_iff_eq.mp hkk
      subst he
      have hkeep : (t.any (fun tv => k == tv.1)) = true := by
        apply List.any_eq_true.mpr
        exact ⟨(k, dt), hmem, beq_iff_eq.mpr rfl⟩
      simp [List.filter_cons, hkeep, List.lookup]
    · by_cases hkeep : (t.any (fun tv => k2 == tv.1)) = true
      · simp [List.filter_cons, hkeep, List.lookup, hkk, ih]
      · simp only [List.filter_cons]
        rw [if_neg (by simpa using hkeep)]
        rw [ih]
        simp [List.lookup, hkk]

theorem validate_extensibleDict_dict (t : List (String × Desc)) (es : List (String × JValue)) :
    validate (.extensibleDict t) (.dict es) = finishReport (extGo t es) := rfl

/-- Does a report dict carry an entry at the given key? -/
def reportHasKey (k : RKey) : Report → Bool
  | .dict es => es.any (fun p => p.1 == k)
  | _ => false

/-! Claim theorems C6 to C10. -/

/-- C6: an alternation over options `opts`, validated against a value
failing every option, returns the report dict pairing every option's
key with that option's own failure — exactly one entry per option; and
against a value where some option matches, it returns the no-error
marker at the first matching option in iteration order, discarding the
failures collected before it. -/
theorem C6_alternation_report :
    (∀ opts v, (∀ p ∈ opts, (validate p.2 v).truthy = true) →
        validate (.alternation opts) v
          = .dict (opts.map (fun p => (p.1, validate p.2 v))) ∧
        (opts.map (fun p => (p.1, validate p.2 v))).length = opts.length) ∧
    (∀ pre k t post v,
        (∀ p ∈ pre, (validate p.2 v).truthy = true) →
        (validate t v).truthy = false →
        validate (.alternation (pre ++ (k, t) :: post)) v = .ok) := by
  constructor
  · intro opts v hall
    rcases altGo_cases opts v with ⟨pre, k, t, post, heq, _, hfail, _⟩ | ⟨_, hdict⟩
    · exfalso
      have hmem : (k, t) ∈ opts := by
        rw [heq]
        exact List.mem_append_right _ (List.mem_cons_self _ _)
      have htr := hall _ hmem
      rw [hfail] at htr
      cases htr
    · exact ⟨by rw [validate_alternation_eval]; exact hdict, by simp⟩
  · intro pre k t post v hpre hfail
    rcases altGo_cases (pre ++ (k, t) :: post) v with ⟨_, _, _, _, _, _, _, hok⟩ | ⟨hall, _⟩
    · rw [validate_alternation_eval]
      exact hok
    · exfalso
      have htr := hall (k, t) (List.mem_append_right _ (List.mem_cons_self _ _))
      rw [hfail] at htr
      cases htr

/-- C6 witness: both halves at concrete inputs — null fails both options
of `_or(string, number)` and yields the two-entry report; the int 5 is
matched by the second option after the first fails. -/
theorem C6_witness :
    (validate (Desc.alternation [(.i 0, .string), (.i 1, .number)]) .null
        = .dict ([((RKey.i 0), Desc.string), ((RKey.i 1), Desc.number)].map
            (fun p => (p.1, validate p.2 .null))) ∧
      ([((RKey.i 0), Desc.string), ((RKey.i 1), Desc.number)].map
            (fun p => (p.1, validate p.2 .null))).length
        = [((RKey.i 0), Desc.string), ((RKey.i 1), Desc.number)].length) ∧
    validate (Desc.alternation ([(.i 0, .string)] ++ (.i 1, .number) :: [])) (.int 5) = .ok :=
  ⟨C6_alternation_report.1 [(.i 0, .string), (.i 1, .number)] .null (by decide),
   C6_alternation_report.2 [(.i 0, .string)] (.i 1) .number [] (.int 5) (by decide) (by decide)⟩

/-- C7: on a mapping value, the exact-dict descriptor reports the
"Unexpected properties" error whenever the value has keys outside the
declared key set, while the extensible-dict descriptor with the same
key-to-descriptor mapping ignores extra keys (validating the value with
its undeclared keys removed gives the same result); in both, each
declared key's descriptor is applied to the value at that key, or to
the Absent sentinel when the key is missing, and exactly the failing
results are reported.  With no extra keys, exact and extensible agree. -/
theorem C7_exactDict_vs_extensibleDict :
    (∀ t es, extraKeys t es ≠ [] →
        validate (.exactDict t) (.dict es)
          = .msg ("Unexpected properties: " ++ String.intercalate ", " (extraKeys t es))) ∧
    (∀ t es, validate (.extensibleDict t) (.dict es)
        = finishReport
            ((t.map (fun kv => (RKey.s kv.1, validate kv.2 (getOrAbsent es kv.1)))).filter
              (fun p => p.2.truthy))) ∧
    (∀ t es, validate (.extensibleDict t) (.dict es)
        = validate (.extensibleDict t)
            (.dict (es.filter (fun kv => t.any (fun tv => kv.1 == tv.1))))) ∧
    (∀ t es, extraKeys t es = [] →
        validate (.exactDict t) (.dict es) = validate (.extensibleDict t) (.dict es)) := by
  have heval : ∀ t es, validate (Desc.exactDict t) (.dict es)
      = if (extraKeys t es).isEmpty then finishReport (extGo t es)
        else .msg ("Unexpected properties: " ++ String.intercalate ", " (extraKeys t es)) := by
    intro t es
    rw [validate_exactDict_eval]
    show (if ((es.map (fun kv => JValue.str kv.1)).filter
            (fun x => !(t.any (fun kv => pyEq x (.str kv.1))))).isEmpty then _ else _) = _
    rw [extra_eq]
    by_cases h : (extraKeys t es).isEmpty = true
    · rw [if_pos (by simpa using h), if_pos h]
    · rw [if_neg (by simpa using h), if_neg h]
      rw [joinStrs_map_str]
  refine ⟨?_, ?_, ?_, ?_⟩
  · intro t es hne
    rw [heval]
    rw [if_neg (by simpa [List.isEmpty_iff] using hne)]
  · intro t es
    rw [validate_extensibleDict_dict, extGo_spec]
  · intro t es
    rw [validate_extensibleDict_dict, validate_extensibleDict_dict]
    rw [extGo_spec, extGo_spec]
    congr 2
    apply List.map_congr_left
    intro kv hkv
    obtain ⟨k, dt⟩ := kv
    unfold getOrAbsent
    rw [lookup_filter_declared hkv]
  · intro t es hempty
    rw [heval, validate_extensibleDict_dict]
    rw [if_pos (by simp [hempty])]

/-- C7 witness: the declared mapping requires a non-empty "name"; a
value with an extra key is rejected by the exact dict with the
"Unexpected properties" message, and with no extra keys exact and
extensible dicts agree. -/
theorem C7_witness :
    validate (.exactDict [("name", .nonemptyString)])
        (.dict [("name", .str "Al"), ("extra", .int 1)])
      = .msg ("Unexpected properties: " ++ String.intercalate ", "
          (extraKeys [("name", .nonemptyString)] [("name", .str "Al"), ("extra", .int 1)])) ∧
    validate (.exactDict [("name", .nonemptyString)]) (.dict [("name", .str "Al")])
      = validate (.extensibleDict [("name", .nonemptyString)]) (.dict [("name", .str "Al")]) :=
  ⟨C7_exactDict_vs_extensibleDict.1 [("name", .nonemptyString)]
      [("name", .str "Al"), ("extra", .int 1)] (by decide),
   C7_exactDict_vs_extensibleDict.2.2.2 [("name", .nonemptyString)]
      [("name", .str "Al")] (by decide)⟩

/-- C8: Optional(D) accepts the Absent sentinel whatever name it
carries (and all AbsentValue instances compare equal under Python
equality); on every non-Absent value — including an explicit null — it
delegates to the inner descriptor unchanged. -/
theorem C8_optional_absent :
    (∀ t name, validate (.optional t) (.absent name) = .ok) ∧
    (∀ a b, pyEq (.absent a) (.absent b) = true) ∧
    (∀ t v, isAbsent v = false → validate (.optional t) v = validate t v) ∧
    (∀ t, validate (.optional t) .null = validate t .null) := by
  refine ⟨fun t name => rfl, fun a b => rfl, ?_, fun t => rfl⟩
  intro t v hv
  cases v <;> first | rfl | simp [isAbsent] at hv

/-- C8 witness: an explicit null is not Absent and is delegated to the
inner Number descriptor. -/
theorem C8_witness :
    validate (.optional .number) .null = validate .number .null :=
  C8_optional_absent.2.2.1 .number .null rfl

/-- C9: the Wild descriptor accepts the Absent sentinel, so an
ExactDict or ExtensibleDict whose descriptor for key k is Wild produces
no error entry at k when the validated mapping lacks key k, even
without an Optional wrapper. -/
theorem C9_wild_accepts_absent :
    (∀ name, validate .wild (.absent name) = .ok) ∧
    (∀ t es k, (∀ dt, (k, dt) ∈ t → dt = .wild) → es.lookup k = none →
        reportHasKey (RKey.s k) (validate (.extensibleDict t) (.dict es)) = false ∧
        reportHasKey (RKey.s k) (validate (.exactDict t) (.dict es)) = false) := by
  constructor
  · intro name
    rfl
  · intro t es k hwild _
    have hnoentry : ∀ p ∈ extGo t es, (p.1 == RKey.s k) = false := by
      intro p hp
      rw [extGo_spec] at hp
      have hp' := List.mem_filter.mp hp
      obtain ⟨kv, hkv, rfl⟩ := List.mem_map.mp hp'.1
      obtain ⟨k', dt⟩ := kv
      by_cases hk : k' = k
      · subst hk
        have : dt = .wild := hwild dt hkv
        subst this
        have : (validate Desc.wild (getOrAbsent es k')).truthy = false := rfl
        rw [this] at hp'
        cases hp'.2
      · simpa using fun h => hk h
    have hfin : reportHasKey (RKey.s k) (finishReport (extGo t es)) = false := by
      unfold finishReport
      split
      · rfl
      · simp only [reportHasKey]
        rw [List.any_eq_false]
        intro p hp
        simp [hnoentry p hp]
    constructor
    · rw [validate_extensibleDict_dict]
      exact hfin
    · rw [validate_exactDict_eval]
      show reportHasKey _ (if ((es.map (fun kv => JValue.str kv.1)).filter
            (fun x => !(t.any (fun kv => pyEq x (.str kv.1))))).isEmpty then _ else _) = false
      split
      · exact hfin
      · split
        · rfl
        · rfl

/-- C9 witness: an exact dict declaring "a" as Wild, validated against
the empty mapping, reports nothing at "a". -/
theorem C9_witness :
    reportHasKey (RKey.s "a") (validate (.extensibleDict [("a", .wild)]) (.dict [])) = false ∧
    reportHasKey (RKey.s "a") (validate (.exactDict [("a", .wild)]) (.dict [])) = false :=
  C9_wild_accepts_absent.2 [("a", .wild)] [] "a"
    (by
      intro dt h
      have he := List.mem_singleton.mp h
      injection he with h1 h2)
    rfl

/-- C10: the conjunction constructor accepts an empty clause list (no
InvalidDescriptor — unlike positional alternation, whose constructor
rejects an empty option list), and the empty conjunction validates
every value to the no-error marker, exactly like Wild. -/
theorem C10_empty_conjunction :
    mkAnd [] = .ok (.and []) ∧
    mkOr [] = .error "_or with no options" ∧
    (∀ v, validate (.and []) v = .ok) ∧
    (∀ v, validate (.and []) v = validate .wild v) :=
  ⟨rfl, rfl, fun _ => rfl, fun _ => rfl⟩

end JsonShapes
